import Mathlib

/-!
Verification of the Markov text generator of `kinda_newsy.py`
(`MarkovGenerator`): a shallow embedding of its construction
(`__init__` / `_generate_mappings`) and sampling (`generate_text`),
together with theorems settling the specified properties.

Modelling conventions:
* Python byte-strings are `List Char`; a whitespace-delimited token is a
  `Word` (`List Char`).
* `str.split()` (no argument) is `splitWS`: split on runs of the six
  C-whitespace characters, dropping empty fragments.
* The `defaultdict(list)` field `self.mappings` is an association list
  `Mappings` kept in key-insertion order; `d[k].append(v)` is `ddAppend`,
  `d.get(k, default)` is `ddFind`/`getD`, and `d.keys()` is `ddKeys`.
  (CPython's hash order of `keys()` differs from insertion order, but only
  the set of keys — which coincides — is ever observable, through a
  uniformly random choice.)
* The global `random` stream is an oracle `Nat → Nat`: the `n`-th call of
  `random.choice(seq)` reads `oracle n` and picks index `oracle n % len(seq)`
  (every index is reachable, and choice from an empty sequence is the
  `IndexError` case, `pyChoice = none`).
* The unbounded `while` loop of `generate_text` is run on explicit fuel;
  exhausting the fuel is `GenResult.timeout` ("still looping"), and an
  uncaught `IndexError` is `GenResult.indexError`.
-/

namespace KindaNewsy

/-- The characters Python 2 `str.split()` (no argument) treats as
whitespace: space, tab, newline, carriage return, vertical tab, form feed. -/
def pyIsSpace (c : Char) : Bool :=
  c == ' ' || c == '\t' || c == '\n' || c == '\r' ||
    c == Char.ofNat 11 || c == Char.ofNat 12

/-- A whitespace-delimited token of the source text. -/
abbrev Word := List Char

/-- Accumulator-based worker for `splitWS`; `acc` holds the current
in-progress token, reversed. -/
def splitWSAux : List Char → Word → List Word
  | [], acc => if acc.isEmpty then [] else [acc.reverse]
  | c :: cs, acc =>
    if pyIsSpace c then
      if acc.isEmpty then splitWSAux cs []
      else acc.reverse :: splitWSAux cs []
    else splitWSAux cs (c :: acc)

/-- Python 2 `text.split()`: tokens between runs of whitespace, no empty
tokens, no other normalization (`kinda_newsy.py` line 42). -/
def splitWS (cs : List Char) : List Word := splitWSAux cs []

/-- The adjacent token pairs `zip(words, words[1:])`
(`kinda_newsy.py` line 43). -/
def wordPairs (ws : List Word) : List (Word × Word) := ws.zip ws.tail

/-- Python `word[-1] == "."` for a non-empty token
(`kinda_newsy.py` line 45; tokens from `split()` are never empty). -/
def endsWithDot (w : Word) : Bool := decide (w.getLast? = some '.')

/-- Python 2 `word.lower()`: ASCII lowercasing, character by character. -/
def pyLower (w : Word) : Word := w.map Char.toLower

/-- `MarkovGenerator.NOSTOP_WORDS` (`kinda_newsy.py` line 32). -/
def NOSTOP_WORDS : List Word := ["mr.".toList, "ms.".toList, "dr.".toList]

/-- The `defaultdict(list)` mapping a word to the list of words recorded
after it, as an association list in key-insertion order. -/
abbrev Mappings := List (Word × List Word)

/-- `self.mappings[k].append(v)` on a `defaultdict(list)`: extend the entry
of `k` in place, creating it (as `[v]`) when absent. -/
def ddAppend : Mappings → Word → Word → Mappings
  | [], k, v => [(k, [v])]
  | (k1, vs) :: rest, k, v =>
    if k1 = k then (k1, vs ++ [v]) :: rest else (k1, vs) :: ddAppend rest k v

/-- Dictionary lookup without insertion, the heart of
`self.mappings.get(word, default)` (`kinda_newsy.py` line 59). -/
def ddFind : Mappings → Word → Option (List Word)
  | [], _ => none
  | (k1, vs) :: rest, k => if k1 = k then some vs else ddFind rest k

/-- `self.mappings.keys()` (`kinda_newsy.py` line 59). -/
def ddKeys (m : Mappings) : List Word := m.map Prod.fst

/-- The state of a `MarkovGenerator` instance after `__init__`:
`self.text`, `self.mappings`, `self.openers`. -/
structure GenState where
  text : List Char
  mappings : Mappings
  openers : List Word
deriving DecidableEq

/-- One iteration of the `for word, next_word in zip(words, words[1:])`
loop of `_generate_mappings` (`kinda_newsy.py` lines 43-49): record an
opener when `word` ends in `.`, then append to the mapping entry. -/
def stepPair (st : GenState) (p : Word × Word) : GenState :=
  GenState.mk st.text (ddAppend st.mappings p.1 p.2)
    (if endsWithDot p.1 then st.openers ++ [p.2] else st.openers)

/-- `MarkovGenerator.__init__` / `_generate_mappings`
(`kinda_newsy.py` lines 34-49): split the text and fold the pair loop over
initially empty structures.  The constructor has no failure path. -/
def construct (text : List Char) : GenState :=
  (wordPairs (splitWS text)).foldl stepPair (GenState.mk text [] [])

/-- The `while` condition of `generate_text` (`kinda_newsy.py` lines 55-57):
`len(output) + len(word) < min_length or word[-1] != "." or
word.lower() in self.NOSTOP_WORDS`. -/
def loopCond (minLength outLen : Nat) (word : Word) : Bool :=
  decide (outLen + word.length < minLength) || !(endsWithDot word) ||
    decide (pyLower word ∈ NOSTOP_WORDS)

/-- `random.choice(l)` reading the raw draw `r` from the random stream:
uniform index `r % l.length`; `none` is the `IndexError` on an empty
sequence. -/
def pyChoice (l : List Word) (r : Nat) : Option Word := l.get? (r % l.length)

/-- `self.mappings.get(word, self.mappings.keys())`
(`kinda_newsy.py` line 59). -/
def getChoices (m : Mappings) (w : Word) : List Word :=
  (ddFind m w).getD (ddKeys m)

/-- Outcome of a fuelled run of `generate_text`: a returned string, an
uncaught `IndexError` from `random.choice` on an empty sequence, or fuel
exhaustion (the loop is still running). -/
inductive GenResult where
  | ok (out : List Char)
  | indexError
  | timeout
deriving DecidableEq

/-- The `while` loop of `generate_text` (`kinda_newsy.py` lines 55-61),
on fuel.  `step` indexes the random stream, `output` and `word` are the
loop variables; the generator state is threaded through unchanged
(the body only calls the non-mutating `.get` and `.keys()`). -/
def genLoop (st : GenState) (minLength : Nat) (oracle : Nat → Nat) :
    Nat → Nat → List Char → Word → GenResult × GenState
  | 0, _, _, _ => (GenResult.timeout, st)
  | fuel+1, step, output, word =>
    if loopCond minLength output.length word then
      match pyChoice (getChoices st.mappings word) (oracle step) with
      | none => (GenResult.indexError, st)
      | some w2 => genLoop st minLength oracle fuel (step+1) (output ++ word ++ [' ']) w2
    else (GenResult.ok (output ++ word), st)

/-- `MarkovGenerator.generate_text` (`kinda_newsy.py` lines 51-62):
start from `random.choice(self.openers)` (random draw number 0) and run
the loop.  The Python default for `min_length` is 100. -/
def generate_text (st : GenState) (minLength : Nat) (oracle : Nat → Nat)
    (fuel : Nat) : GenResult × GenState :=
  match pyChoice st.openers (oracle 0) with
  | none => (GenResult.indexError, st)
  | some w0 => genLoop st minLength oracle fuel 1 [] w0

/-- The successor list of `w`, as the spec words it (§4.1): the tokens
`word[i+1]` for every `i` in `[0, len(words)-2]` with `word[i] = w`, in
order of occurrence. -/
def specSuccessors (ws : List Word) (w : Word) : List Word :=
  ((List.range (ws.length - 1)).filter (fun i => decide (ws.getD i [] = w))).map
    (fun i => ws.getD (i+1) [])

/-- The opener list, as the spec words it (§4.1): the tokens `word[i+1]`
for every `i` in `[0, len(words)-2]` such that `word[i]` ends with `.`,
in order of occurrence. -/
def specOpeners (ws : List Word) : List Word :=
  ((List.range (ws.length - 1)).filter (fun i => endsWithDot (ws.getD i []))).map
    (fun i => ws.getD (i+1) [])

/-- The characters contributed to `output` by the non-final words of a run:
each word followed by the single space of `output += word + " "`. -/
def flatJoin (ws : List Word) : List Char :=
  (ws.map (fun w => w ++ [' '])).flatten

/-! ### Association-list lemmas -/

theorem ddFind_ddAppend (m : Mappings) (k v : Word) (w : Word) :
    ddFind (ddAppend m k v) w =
      if w = k then some ((ddFind m k).getD [] ++ [v]) else ddFind m w := by
  induction m with
  | nil =>
    by_cases h : w = k
    · subst h
      simp [ddAppend, ddFind]
    · simp [ddAppend, ddFind, h, Ne.symm h]
  | cons hd tl ih =>
    obtain ⟨k1, vs⟩ := hd
    by_cases h1 : k1 = k
    · subst h1
      by_cases h2 : w = k1
      · subst h2
        simp [ddAppend, ddFind]
      · simp [ddAppend, ddFind, h2, Ne.symm h2]
    · by_cases h2 : w = k1
      · subst h2
        simp [ddAppend, ddFind, h1]
      · by_cases h3 : w = k
        · subst h3
          simp [ddAppend, ddFind, h1, Ne.symm h2, ih]
        · simp [ddAppend, ddFind, h1, Ne.symm h2, h3, ih]

theorem ddKeys_ddAppend (m : Mappings) (k v : Word) :
    ddKeys (ddAppend m k v) =
      if k ∈ ddKeys m then ddKeys m else ddKeys m ++ [k] := by
  induction m with
  | nil => simp [ddAppend, ddKeys]
  | cons hd tl ih =>
    obtain ⟨k1, vs⟩ := hd
    by_cases h1 : k1 = k
    · subst h1
      simp [ddAppend, ddKeys]
    · have h4 : ¬ k = k1 := fun hh => h1 hh.symm
      simp only [ddAppend, if_neg h1, ddKeys, List.map_cons]
      simp only [ddKeys] at ih
      rw [ih]
      by_cases h2 : k ∈ List.map Prod.fst tl
      · simp [List.mem_cons, h4, h2]
      · simp [List.mem_cons, h4, h2]

theorem ddFind_isSome_iff (m : Mappings) (w : Word) :
    (ddFind m w).isSome = true ↔ w ∈ ddKeys m := by
  induction m with
  | nil => simp [ddFind, ddKeys]
  | cons hd tl ih =>
    obtain ⟨k1, vs⟩ := hd
    by_cases h : k1 = w
    · subst h
      simp [ddFind, ddKeys]
    · simp [ddFind, ddKeys, h, Ne.symm h, ih]

theorem ddKeys_ddAppend_nodup (m : Mappings) (k v : Word)
    (h : (ddKeys m).Nodup) : (ddKeys (ddAppend m k v)).Nodup := by
  rw [ddKeys_ddAppend]
  by_cases hk : k ∈ ddKeys m
  · simpa [hk] using h
  · simpa [hk, List.nodup_append] using h

/-! ### Characterizing the fold of `_generate_mappings` -/

theorem foldl_stepPair_text (ps : List (Word × Word)) (st : GenState) :
    (ps.foldl stepPair st).text = st.text := by
  induction ps generalizing st with
  | nil => rfl
  | cons p ps ih => simp [List.foldl_cons, ih, stepPair]

theorem foldl_stepPair_openers (ps : List (Word × Word)) (st : GenState) :
    (ps.foldl stepPair st).openers =
      st.openers ++ (ps.filter (fun p => endsWithDot p.1)).map Prod.snd := by
  induction ps generalizing st with
  | nil => simp
  | cons p ps ih =>
    by_cases h : endsWithDot p.1 <;>
      simp [List.foldl_cons, ih, stepPair, h]

theorem foldl_stepPair_findD (ps : List (Word × Word)) (st : GenState) (w : Word) :
    (ddFind (ps.foldl stepPair st).mappings w).getD [] =
      (ddFind st.mappings w).getD [] ++
        (ps.filter (fun p => decide (p.1 = w))).map Prod.snd := by
  induction ps generalizing st with
  | nil => simp
  | cons p ps ih =>
    rw [List.foldl_cons, ih]
    by_cases h : p.1 = w
    · simp [stepPair, ddFind_ddAppend, h, List.filter_cons]
    · have h2 : ¬ (w = p.1) := fun hh => h hh.symm
      simp [stepPair, ddFind_ddAppend, h, h2, List.filter_cons]

theorem foldl_stepPair_isSome (ps : List (Word × Word)) (st : GenState) (w : Word) :
    (ddFind (ps.foldl stepPair st).mappings w).isSome =
      ((ddFind st.mappings w).isSome || decide (w ∈ ps.map Prod.fst)) := by
  induction ps generalizing st with
  | nil => simp
  | cons p ps ih =>
    rw [List.foldl_cons, ih]
    by_cases h : w = p.1
    · simp [stepPair, ddFind_ddAppend, h]
    · have hb : (w == p.1) = false := beq_eq_false_iff_ne.mpr h
      simp [stepPair, ddFind_ddAppend, h, hb]

theorem foldl_stepPair_keys_nodup (ps : List (Word × Word)) (st : GenState)
    (h : (ddKeys st.mappings).Nodup) :
    (ddKeys (ps.foldl stepPair st).mappings).Nodup := by
  induction ps generalizing st with
  | nil => exact h
  | cons p ps ih =>
    rw [List.foldl_cons]
    exact ih _ (by simpa [stepPair] using ddKeys_ddAppend_nodup _ p.1 p.2 h)

/-! ### Characterizing `construct` -/

theorem construct_text (text : List Char) : (construct text).text = text := by
  simp [construct, foldl_stepPair_text]

theorem construct_openers (text : List Char) :
    (construct text).openers =
      ((wordPairs (splitWS text)).filter (fun p => endsWithDot p.1)).map Prod.snd := by
  simp [construct, foldl_stepPair_openers]

theorem construct_findD (text : List Char) (w : Word) :
    (ddFind (construct text).mappings w).getD [] =
      ((wordPairs (splitWS text)).filter (fun p => decide (p.1 = w))).map Prod.snd := by
  simp [construct, foldl_stepPair_findD, ddFind]

theorem construct_isSome (text : List Char) (w : Word) :
    (ddFind (construct text).mappings w).isSome =
      decide (w ∈ (wordPairs (splitWS text)).map Prod.fst) := by
  simp [construct, foldl_stepPair_isSome, ddFind]

theorem construct_keys_nodup (text : List Char) :
    (ddKeys (construct text).mappings).Nodup := by
  exact foldl_stepPair_keys_nodup _ _ (by simp [ddKeys])

theorem construct_find_ne_nil (text : List Char) (w : Word) (vs : List Word)
    (h : ddFind (construct text).mappings w = some vs) : vs ≠ [] := by
  have hs : (ddFind (construct text).mappings w).isSome = true := by
    simp [h]
  rw [construct_isSome] at hs
  have hmem : w ∈ (wordPairs (splitWS text)).map Prod.fst := by simpa using hs
  obtain ⟨p, hp, hpw⟩ := List.mem_map.mp hmem
  have hvs : (ddFind (construct text).mappings w).getD [] = vs := by simp [h]
  rw [construct_findD] at hvs
  intro hnil
  rw [hnil] at hvs
  have : p ∈ (wordPairs (splitWS text)).filter (fun p => decide (p.1 = w)) :=
    List.mem_filter.mpr ⟨hp, by simp [hpw]⟩
  have : p.2 ∈ ((wordPairs (splitWS text)).filter
      (fun p => decide (p.1 = w))).map Prod.snd := List.mem_map_of_mem _ this
  rw [hvs] at this
  simp at this

/-! ### Tokenization lemmas -/

theorem splitWSAux_mem (cs : List Char) (acc : Word)
    (hacc : ∀ c ∈ acc, pyIsSpace c = false) :
    ∀ t ∈ splitWSAux cs acc, t ≠ [] ∧ ∀ c ∈ t, pyIsSpace c = false := by
  induction cs generalizing acc with
  | nil =>
    intro t ht
    by_cases h : acc.isEmpty
    · simp [splitWSAux, h] at ht
    · simp only [splitWSAux, if_neg h, List.mem_singleton] at ht
      subst ht
      refine ⟨?_, ?_⟩
      · cases acc with
        | nil => simp at h
        | cons a as => simp
      · intro c hc
        exact hacc c (List.mem_reverse.mp hc)
  | cons c cs ih =>
    intro t ht
    by_cases hsp : pyIsSpace c
    · by_cases h : acc.isEmpty
      · simp only [splitWSAux, if_pos hsp, if_pos h] at ht
        exact ih [] (by simp) t ht
      · simp only [splitWSAux, if_pos hsp, if_neg h, List.mem_cons] at ht
        rcases ht with ht | ht
        · subst ht
          refine ⟨?_, ?_⟩
          · cases acc with
            | nil => simp at h
            | cons a as => simp
          · intro c2 hc2
            exact hacc c2 (List.mem_reverse.mp hc2)
        · exact ih [] (by simp) t ht
    · simp only [splitWSAux, if_neg hsp] at ht
      refine ih (c :: acc) ?_ t ht
      intro c2 hc2
      rcases List.mem_cons.mp hc2 with hc2 | hc2
      · subst hc2
        simpa using hsp
      · exact hacc c2 hc2

theorem splitWS_mem (cs : List Char) :
    ∀ t ∈ splitWS cs, t ≠ [] ∧ ∀ c ∈ t, pyIsSpace c = false :=
  splitWSAux_mem cs [] (by simp)

theorem splitWSAux_append_nonspace (w : Word) (cs : List Char) (acc : Word)
    (hw : ∀ c ∈ w, pyIsSpace c = false) :
    splitWSAux (w ++ cs) acc = splitWSAux cs (w.reverse ++ acc) := by
  induction w generalizing acc with
  | nil => simp
  | cons c w ih =>
    have hc : pyIsSpace c = false := hw c (by simp)
    simp only [List.cons_append, splitWSAux, hc, Bool.false_eq_true, if_false,
      List.append_eq]
    rw [ih (c :: acc) (fun c2 hc2 => hw c2 (by simp [hc2]))]
    simp

theorem splitWSAux_space (cs : List Char) (acc : Word) (hne : acc ≠ []) :
    splitWSAux (' ' :: cs) acc = acc.reverse :: splitWSAux cs [] := by
  have hsp : pyIsSpace ' ' = true := by decide
  have hie : acc.isEmpty = false := by
    cases acc with
    | nil => exact absurd rfl hne
    | cons a as => rfl
  simp [splitWSAux, hsp, hie]

theorem splitWS_flatJoin (ws1 : List Word) (wl : Word)
    (h1 : ∀ w ∈ ws1, w ≠ [] ∧ ∀ c ∈ w, pyIsSpace c = false)
    (h2 : wl ≠ []) (h3 : ∀ c ∈ wl, pyIsSpace c = false) :
    splitWS (flatJoin ws1 ++ wl) = ws1 ++ [wl] := by
  induction ws1 with
  | nil =>
    have hwl : (wl : List Char) = wl ++ [] := (List.append_nil wl).symm
    simp only [flatJoin, List.map_nil, List.flatten_nil, List.nil_append]
    rw [splitWS, hwl, splitWSAux_append_nonspace wl [] [] h3]
    have hie : (wl.reverse ++ []).isEmpty = false := by
      cases hrv : wl.reverse with
      | nil => exact absurd (by simpa using hrv) h2
      | cons a as => rfl
    simp [splitWSAux, hie, h2]
  | cons w ws ih =>
    obtain ⟨hwne, hwns⟩ := h1 w (by simp)
    have hshape : flatJoin (w :: ws) ++ wl = w ++ (' ' :: (flatJoin ws ++ wl)) := by
      simp [flatJoin]
    rw [splitWS, hshape, splitWSAux_append_nonspace w _ [] hwns]
    rw [List.append_nil, splitWSAux_space _ _ (by simpa using hwne)]
    rw [List.reverse_reverse]
    have := ih (fun w2 hw2 => h1 w2 (by simp [hw2]))
    rw [splitWS] at this
    rw [this]
    simp

/-! ### Index characterization of the adjacent-pair list -/

theorem wordPairs_eq_range : ∀ ws : List Word,
    wordPairs ws = (List.range (ws.length - 1)).map
      (fun i => (ws.getD i [], ws.getD (i+1) []))
  | [] => rfl
  | [_] => rfl
  | a :: b :: t => by
    have ih := wordPairs_eq_range (b :: t)
    have h1 : wordPairs (a :: b :: t) = (a, b) :: wordPairs (b :: t) := rfl
    have h2 : (a :: b :: t).length - 1 = ((b :: t).length - 1) + 1 := by simp
    rw [h1, ih, h2, List.range_succ_eq_map]
    simp only [List.map_cons, List.map_map]
    rfl

theorem wordPairs_mem (ws : List Word) (p : Word × Word) (hp : p ∈ wordPairs ws) :
    p.1 ∈ ws ∧ p.2 ∈ ws := by
  obtain ⟨a, b⟩ := p
  unfold wordPairs at hp
  have h := List.of_mem_zip hp
  exact ⟨h.1, List.mem_of_mem_tail h.2⟩

/-! ### Lemmas on the generation loop -/

theorem pyChoice_mem (l : List Word) (r : Nat) (w : Word)
    (h : pyChoice l r = some w) : w ∈ l :=
  List.get?_mem h

theorem pyChoice_isSome (l : List Word) (r : Nat) (hl : l ≠ []) :
    (pyChoice l r).isSome = true := by
  have hlen : 0 < l.length := List.length_pos.mpr hl
  have hlt : r % l.length < l.length := Nat.mod_lt r hlen
  rw [pyChoice, List.get?_eq_get hlt]
  rfl

theorem pyChoice_singleton (w : Word) (r : Nat) :
    pyChoice [w] r = some w := by
  simp [pyChoice, Nat.mod_one]

theorem genLoop_state (st : GenState) (minLength : Nat) (oracle : Nat → Nat)
    (fuel step : Nat) (output : List Char) (word : Word) :
    (genLoop st minLength oracle fuel step output word).2 = st := by
  induction fuel generalizing step output word with
  | zero => rfl
  | succ fuel ih =>
    rw [genLoop]
    by_cases h : loopCond minLength output.length word
    · rw [if_pos h]
      cases hp : pyChoice (getChoices st.mappings word) (oracle step) with
      | none => rfl
      | some w2 => exact ih (step+1) (output ++ word ++ [' ']) w2
    · rw [if_neg h]

theorem generate_text_state (st : GenState) (minLength : Nat)
    (oracle : Nat → Nat) (fuel : Nat) :
    (generate_text st minLength oracle fuel).2 = st := by
  rw [generate_text]
  cases hp : pyChoice st.openers (oracle 0) with
  | none => rfl
  | some w0 => exact genLoop_state st minLength oracle fuel 1 [] w0

theorem loopCond_eq_false (minLength outLen : Nat) (word : Word)
    (h : loopCond minLength outLen word = false) :
    minLength ≤ outLen + word.length ∧ endsWithDot word = true ∧
      pyLower word ∉ NOSTOP_WORDS := by
  simp only [loopCond, Bool.or_eq_false_iff, decide_eq_false_iff_not,
    Bool.not_eq_false'] at h
  exact ⟨Nat.le_of_not_lt h.1.1, h.1.2, h.2⟩

/-- Shape and provenance of a successful run of the `while` loop: the
returned string is the loop's words joined by single spaces; every word
satisfies any predicate `P` that holds of the initial word and is preserved
by choosing from `self.mappings.get(word, self.mappings.keys())`; the final
word passed the stopping rule; and the minimum length was reached. -/
theorem genLoop_ok_shape (st : GenState) (minLength : Nat) (oracle : Nat → Nat)
    (P : Word → Prop)
    (hP : ∀ w w2, w2 ∈ getChoices st.mappings w → P w2) :
    ∀ fuel step output word out, P word →
      (genLoop st minLength oracle fuel step output word).1 = GenResult.ok out →
      ∃ mid wl, out = output ++ flatJoin mid ++ wl ∧
        (∀ w ∈ mid, P w) ∧ P wl ∧
        endsWithDot wl = true ∧ pyLower wl ∉ NOSTOP_WORDS ∧
        minLength ≤ out.length := by
  intro fuel
  induction fuel with
  | zero =>
    intro step output word out _ hok
    exact absurd hok (by simp [genLoop])
  | succ fuel ih =>
    intro step output word out hPw hok
    rw [genLoop] at hok
    by_cases h : loopCond minLength output.length word
    · rw [if_pos h] at hok
      cases hp : pyChoice (getChoices st.mappings word) (oracle step) with
      | none =>
        rw [hp] at hok
        exact absurd hok (by simp)
      | some w2 =>
        rw [hp] at hok
        have hPw2 : P w2 := hP word w2 (pyChoice_mem _ _ _ hp)
        obtain ⟨mid, wl, heq, hmid, hwl, hdot, hns, hlen⟩ :=
          ih (step+1) (output ++ word ++ [' ']) w2 out hPw2 hok
        refine ⟨word :: mid, wl, ?_, ?_, hwl, hdot, hns, hlen⟩
        · rw [heq]
          simp [flatJoin]
        · intro w hw
          rcases List.mem_cons.mp hw with hw | hw
          · exact hw ▸ hPw
          · exact hmid w hw
    · rw [if_neg h] at hok
      have hout : out = output ++ word := by
        have := hok
        simp at this
        exact this.symm
      obtain ⟨hlen, hdot, hns⟩ :=
        loopCond_eq_false minLength output.length word (Bool.eq_false_iff.mpr h)
      refine ⟨[], word, by simp [hout, flatJoin], by simp, hPw, hdot, hns, ?_⟩
      rw [hout]
      simpa [List.length_append] using hlen

/-! ### Provenance: everything chosen during a walk is a source token -/

theorem openers_subset_tokens (text : List Char) (w : Word)
    (h : w ∈ (construct text).openers) : w ∈ splitWS text := by
  rw [construct_openers] at h
  obtain ⟨p, hp, hpe⟩ := List.mem_map.mp h
  exact hpe ▸ (wordPairs_mem _ p (List.mem_filter.mp hp).1).2

theorem getChoices_subset_tokens (text : List Char) (w w2 : Word)
    (h : w2 ∈ getChoices (construct text).mappings w) : w2 ∈ splitWS text := by
  unfold getChoices at h
  cases hf : ddFind (construct text).mappings w with
  | none =>
    rw [hf] at h
    have hk : w2 ∈ ddKeys (construct text).mappings := by simpa using h
    have hsome : (ddFind (construct text).mappings w2).isSome = true :=
      (ddFind_isSome_iff _ _).mpr hk
    rw [construct_isSome] at hsome
    have hmem : w2 ∈ (wordPairs (splitWS text)).map Prod.fst := by
      simpa using hsome
    obtain ⟨p, hp, hpe⟩ := List.mem_map.mp hmem
    exact hpe ▸ (wordPairs_mem _ p hp).1
  | some vs =>
    rw [hf] at h
    have hvs : vs = ((wordPairs (splitWS text)).filter
        (fun p => decide (p.1 = w))).map Prod.snd := by
      have hgd := construct_findD text w
      rw [hf] at hgd
      simpa using hgd
    rw [hvs] at h
    obtain ⟨p, hp, hpe⟩ := List.mem_map.mp h
    exact hpe ▸ (wordPairs_mem _ p (List.mem_filter.mp hp).1).2

/-- Anatomy of any string returned by `generate_text` on a constructed
generator: splitting it on whitespace recovers the walk's words, all of
them tokens of the source text, the last one a valid terminal, and the
total length at least `min_length`. -/
theorem generate_text_ok_anatomy (text : List Char) (minLength : Nat)
    (oracle : Nat → Nat) (fuel : Nat) (out : List Char)
    (h : (generate_text (construct text) minLength oracle fuel).1 =
      GenResult.ok out) :
    ∃ mid wl, splitWS out = mid ++ [wl] ∧
      (∀ w ∈ mid, w ∈ splitWS text) ∧ wl ∈ splitWS text ∧
      endsWithDot wl = true ∧ pyLower wl ∉ NOSTOP_WORDS ∧
      minLength ≤ out.length := by
  rw [generate_text] at h
  cases hp : pyChoice (construct text).openers (oracle 0) with
  | none =>
    rw [hp] at h
    exact absurd h (by simp)
  | some w0 =>
    rw [hp] at h
    have hP0 : w0 ∈ splitWS text :=
      openers_subset_tokens text w0 (pyChoice_mem _ _ _ hp)
    obtain ⟨mid, wl, heq, hmid, hwl, hdot, hns, hlen⟩ :=
      genLoop_ok_shape (construct text) minLength oracle
        (fun w => w ∈ splitWS text)
        (fun w w2 hc => getChoices_subset_tokens text w w2 hc)
        fuel 1 [] w0 out hP0 h
    refine ⟨mid, wl, ?_, hmid, hwl, hdot, hns, hlen⟩
    have heq2 : out = flatJoin mid ++ wl := by simpa using heq
    rw [heq2]
    exact splitWS_flatJoin mid wl
      (fun w hw => splitWS_mem text w (hmid w hw))
      (splitWS_mem text wl hwl).1 (splitWS_mem text wl hwl).2

theorem wordPairs_short_nil (ws : List Word) (h : ws.length < 2) :
    wordPairs ws = [] := by
  cases ws with
  | nil => rfl
  | cons a tl =>
    cases tl with
    | nil => rfl
    | cons b t =>
      exfalso
      rw [List.length_cons, List.length_cons] at h
      omega

theorem ddKeys_construct_ne_nil (text : List Char)
    (h : 2 ≤ (splitWS text).length) :
    ddKeys (construct text).mappings ≠ [] := by
  cases hws : splitWS text with
  | nil => rw [hws] at h; simp at h
  | cons a tl =>
    cases tl with
    | nil => rw [hws] at h; simp at h
    | cons b t =>
      have hpair : (a, b) ∈ wordPairs (splitWS text) := by
        rw [hws]
        exact List.mem_cons_self _ _
      have hfst : a ∈ (wordPairs (splitWS text)).map Prod.fst :=
        List.mem_map_of_mem _ hpair
      have hsome : (ddFind (construct text).mappings a).isSome = true := by
        rw [construct_isSome]
        simpa using hfst
      have hk : a ∈ ddKeys (construct text).mappings :=
        (ddFind_isSome_iff _ _).mp hsome
      exact List.ne_nil_of_mem hk

theorem getChoices_construct_ne_nil (text : List Char) (w : Word)
    (h : 2 ≤ (splitWS text).length) :
    getChoices (construct text).mappings w ≠ [] := by
  unfold getChoices
  cases hf : ddFind (construct text).mappings w with
  | none => simpa using ddKeys_construct_ne_nil text h
  | some vs => simpa using construct_find_ne_nil text w vs hf

theorem genLoop_ne_indexError (text : List Char) (minLength : Nat)
    (oracle : Nat → Nat) (h : 2 ≤ (splitWS text).length) :
    ∀ fuel step output word,
      (genLoop (construct text) minLength oracle fuel step output word).1 ≠
        GenResult.indexError := by
  intro fuel
  induction fuel with
  | zero =>
    intro step output word
    simp [genLoop]
  | succ fuel ih =>
    intro step output word
    rw [genLoop]
    by_cases hc : loopCond minLength output.length word
    · rw [if_pos hc]
      cases hp : pyChoice (getChoices (construct text).mappings word)
          (oracle step) with
      | none =>
        have := pyChoice_isSome (getChoices (construct text).mappings word)
          (oracle step) (getChoices_construct_ne_nil text word h)
        rw [hp] at this
        simp at this
      | some w2 => exact ih (step+1) (output ++ word ++ [' ']) w2
    · rw [if_neg hc]
      simp

theorem foldl_stepPair_mappings_congr (ps : List (Word × Word))
    (s1 s2 : GenState) (h : s1.mappings = s2.mappings) :
    (ps.foldl stepPair s1).mappings = (ps.foldl stepPair s2).mappings := by
  induction ps generalizing s1 s2 with
  | nil => exact h
  | cons p ps ih =>
    rw [List.foldl_cons, List.foldl_cons]
    exact ih _ _ (by simp [stepPair, h])

theorem foldl_stepPair_openers_congr (ps : List (Word × Word))
    (s1 s2 : GenState) (h : s1.openers = s2.openers) :
    (ps.foldl stepPair s1).openers = (ps.foldl stepPair s2).openers := by
  induction ps generalizing s1 s2 with
  | nil => exact h
  | cons p ps ih =>
    rw [List.foldl_cons, List.foldl_cons]
    exact ih _ _ (by simp [stepPair, h])

/-! ### Claim theorems -/

/-- C1: for every source text, construction tokenizes by splitting on
whitespace and, for each adjacent token pair `(word[i], word[i+1])` with
`i` in `[0, len(words)-2]`, appends `word[i+1]` to the transition-table
entry keyed by `word[i]`; and exactly when `word[i]` ends in `.` it also
appends `word[i+1]` to the opener list — in order of occurrence, duplicates
retained, with no normalization (tokens are compared raw). -/
theorem construction_table_openers (text : List Char) (w : Word) :
    (ddFind (construct text).mappings w).getD [] =
      specSuccessors (splitWS text) w ∧
    (ddFind (construct text).mappings w = none ↔
      specSuccessors (splitWS text) w = []) ∧
    (construct text).openers = specOpeners (splitWS text) := by
  have hsucc : (ddFind (construct text).mappings w).getD [] =
      specSuccessors (splitWS text) w := by
    rw [construct_findD, wordPairs_eq_range]
    rw [List.filter_map, List.map_map]
    rfl
  refine ⟨hsucc, ⟨?_, ?_⟩, ?_⟩
  · intro hn
    rw [← hsucc, hn]
    rfl
  · intro hnil
    cases hf : ddFind (construct text).mappings w with
    | none => rfl
    | some vs =>
      exfalso
      have hne := construct_find_ne_nil text w vs hf
      apply hne
      rw [← hnil, ← hsucc, hf]
      rfl
  · rw [construct_openers, wordPairs_eq_range]
    rw [List.filter_map, List.map_map]
    rfl

/-- C3 counterexample: the spec's own engineered soft-floor edge case — the
single opener `"Hi."` of source `"Hello. Hi."` is a valid terminal shorter
than `min_length = 10` on the very first word — does not yield a string
shorter than 10: the loop keeps going and returns the 10-character
`"Hi. Hello."` (here every `random.choice` is over a singleton, so this run
is the only possible one). -/
theorem soft_floor_waiver_refuted :
    (generate_text (construct ("Hello. Hi.".toList)) 10 (fun _ => 0) 10).1 =
      GenResult.ok ("Hi. Hello.".toList) ∧
    10 ≤ ("Hi. Hello.".toList).length := by
  exact ⟨by decide, by decide⟩

/-- C3 (amended): whenever `generate_text` returns a string, that string's
length is at least `min_length`, with no exception: the length test is a
conjunct of the stopping rule, checked even on the very first word, so the
minimum is never waived. -/
theorem generated_length_ge_min (st : GenState) (minLength : Nat)
    (oracle : Nat → Nat) (fuel : Nat) (out : List Char)
    (h : (generate_text st minLength oracle fuel).1 = GenResult.ok out) :
    minLength ≤ out.length := by
  rw [generate_text] at h
  cases hp : pyChoice st.openers (oracle 0) with
  | none =>
    rw [hp] at h
    exact absurd h (by simp)
  | some w0 =>
    rw [hp] at h
    obtain ⟨_, _, _, _, _, _, _, hlen⟩ :=
      genLoop_ok_shape st minLength oracle (fun _ => True)
        (fun _ _ _ => trivial) fuel 1 [] w0 out trivial h
    exact hlen

theorem generated_length_ge_min_witness :
    10 ≤ ("Hi. Hello.".toList).length :=
  generated_length_ge_min (construct ("Hello. Hi.".toList)) 10 (fun _ => 0) 10
    ("Hi. Hello.".toList) (by decide)

/-- C4 counterexample: constructing from the single-token source `"word"`
does not raise — `__init__` has no failure path and yields a generator
state with empty mappings and openers; the failure (an `IndexError`, not a
construction-time `EmptySourceError`) happens only when `generate_text`
calls `random.choice` on the empty opener list. -/
theorem construct_short_source_no_raise :
    construct ("word".toList) = GenState.mk ("word".toList) [] [] ∧
    (generate_text (construct ("word".toList)) 100 (fun _ => 0) 5).1 =
      GenResult.indexError := by
  exact ⟨by decide, by decide⟩

/-- C4 (amended): constructing from a source with fewer than two tokens
succeeds, producing empty mappings and an empty opener list; calling
`generate_text` on any generator whose opener list is empty raises
(`IndexError` from `random.choice([])`) rather than returning a string —
generation never silently succeeds. -/
theorem empty_source_generation_fails :
    (∀ (st : GenState) (minLength : Nat) (oracle : Nat → Nat) (fuel : Nat),
      st.openers = [] →
      (generate_text st minLength oracle fuel).1 = GenResult.indexError) ∧
    (∀ text : List Char, (splitWS text).length < 2 →
      (construct text).openers = [] ∧ (construct text).mappings = []) := by
  constructor
  · intro st minLength oracle fuel hop
    rw [generate_text, hop]
    rfl
  · intro text hshort
    have hnil : wordPairs (splitWS text) = [] :=
      wordPairs_short_nil (splitWS text) hshort
    rw [construct, hnil]
    exact ⟨rfl, rfl⟩

theorem empty_source_generation_fails_witness :
    (generate_text (construct ("word".toList)) 100 (fun _ => 0) 5).1 =
      GenResult.indexError ∧
    (construct ("word".toList)).openers = [] ∧
    (construct ("word".toList)).mappings = [] :=
  ⟨empty_source_generation_fails.1 (construct ("word".toList)) 100
      (fun _ => 0) 5 (by decide),
    empty_source_generation_fails.2 ("word".toList) (by decide)⟩

/-- C6: the transition table and the opener list are a deterministic
function of the tokenization of the source text — two constructions from
texts with the same whitespace split (in particular, repeated constructions
from the same text) build identical mappings and identical opener lists;
only sentence sampling reads the random stream. -/
theorem construction_deterministic (t1 t2 : List Char)
    (h : splitWS t1 = splitWS t2) :
    (construct t1).mappings = (construct t2).mappings ∧
    (construct t1).openers = (construct t2).openers := by
  constructor
  · rw [construct, construct, h]
    exact foldl_stepPair_mappings_congr _ _ _ rfl
  · rw [construct, construct, h]
    exact foldl_stepPair_openers_congr _ _ _ rfl

theorem construction_deterministic_witness :
    (construct ("a. b".toList)).mappings =
      (construct ("a.\tb".toList)).mappings ∧
    (construct ("a. b".toList)).openers =
      (construct ("a.\tb".toList)).openers :=
  construction_deterministic ("a. b".toList) ("a.\tb".toList) (by decide)

/-- C7: every word appearing as a key of the transition table has a
non-empty successor list, and the invariant is preserved by `generate_text`
calls — the generation loop looks words up with the non-mutating `.get`,
so no empty entries are ever created. -/
theorem table_entries_nonempty :
    (∀ (text : List Char) (w : Word) (vs : List Word),
      ddFind (construct text).mappings w = some vs → vs ≠ []) ∧
    (∀ (st : GenState) (minLength : Nat) (oracle : Nat → Nat) (fuel : Nat)
        (w : Word) (vs : List Word),
      (∀ w2 vs2, ddFind st.mappings w2 = some vs2 → vs2 ≠ []) →
      ddFind ((generate_text st minLength oracle fuel).2).mappings w =
        some vs → vs ≠ []) := by
  constructor
  · exact construct_find_ne_nil
  · intro st minLength oracle fuel w vs hinv hfind
    rw [generate_text_state] at hfind
    exact hinv w vs hfind

theorem table_entries_nonempty_witness :
    (("b".toList : Word) :: []) ≠ ([] : List Word) ∧
    (("b".toList : Word) :: []) ≠ ([] : List Word) :=
  ⟨table_entries_nonempty.1 ("a. b c".toList) ("a.".toList) [("b".toList)]
      (by decide),
    table_entries_nonempty.2 (construct ("a. b c".toList)) 100 (fun _ => 0) 3
      ("a.".toList) [("b".toList)]
      (fun w2 vs2 hf => construct_find_ne_nil ("a. b c".toList) w2 vs2 hf)
      (by decide)⟩

/-- C8: `generate_text` never mutates the generator — whatever it returns
(a string, an `IndexError`, or still looping at any fuel), the state
(source text, transition table and opener list) after the call is exactly
the state at construction. -/
theorem generate_text_frame :
    (∀ (st : GenState) (minLength : Nat) (oracle : Nat → Nat) (fuel : Nat),
      (generate_text st minLength oracle fuel).2 = st) ∧
    (∀ (text : List Char) (minLength : Nat) (oracle : Nat → Nat) (fuel : Nat),
      (generate_text (construct text) minLength oracle fuel).2 =
        construct text) :=
  ⟨generate_text_state,
    fun text minLength oracle fuel =>
      generate_text_state (construct text) minLength oracle fuel⟩

/-- C2: whenever `generate_text` returns a string, the final
whitespace-delimited word of that string ends with `.` and its lowercased
form is not in the stop-exception list `["mr.", "ms.", "dr."]`; in
particular, on the source `"Hello world. Mr. Smith left. Goodbye now."` a
generated sentence never terminates immediately after `"Mr."`. -/
theorem generated_terminal_valid :
    (∀ (text : List Char) (minLength : Nat) (oracle : Nat → Nat) (fuel : Nat)
        (out : List Char),
      (generate_text (construct text) minLength oracle fuel).1 =
        GenResult.ok out →
      ∃ wl, (splitWS out).getLast? = some wl ∧ endsWithDot wl = true ∧
        pyLower wl ∉ NOSTOP_WORDS) ∧
    (∀ (minLength : Nat) (oracle : Nat → Nat) (fuel : Nat) (out : List Char),
      (generate_text
          (construct ("Hello world. Mr. Smith left. Goodbye now.".toList))
          minLength oracle fuel).1 = GenResult.ok out →
      (splitWS out).getLast? ≠ some ("Mr.".toList)) := by
  have main : ∀ (text : List Char) (minLength : Nat) (oracle : Nat → Nat)
      (fuel : Nat) (out : List Char),
      (generate_text (construct text) minLength oracle fuel).1 =
        GenResult.ok out →
      ∃ wl, (splitWS out).getLast? = some wl ∧ endsWithDot wl = true ∧
        pyLower wl ∉ NOSTOP_WORDS := by
    intro text minLength oracle fuel out h
    obtain ⟨mid, wl, hsplit, _, _, hdot, hns, _⟩ :=
      generate_text_ok_anatomy text minLength oracle fuel out h
    refine ⟨wl, ?_, hdot, hns⟩
    rw [hsplit]
    exact List.getLast?_concat _
  refine ⟨main, ?_⟩
  intro minLength oracle fuel out h hlast
  obtain ⟨wl, hwl, hdot, hns⟩ := main _ minLength oracle fuel out h
  rw [hlast] at hwl
  have hwm : wl = "Mr.".toList := (Option.some.inj hwl).symm
  apply hns
  rw [hwm]
  decide

theorem generated_terminal_valid_witness :
    (∃ wl, (splitWS ("Mr. Smith left.".toList)).getLast? = some wl ∧
      endsWithDot wl = true ∧ pyLower wl ∉ NOSTOP_WORDS) ∧
    (splitWS ("Mr. Smith left.".toList)).getLast? ≠ some ("Mr.".toList) :=
  ⟨generated_terminal_valid.1
      ("Hello world. Mr. Smith left. Goodbye now.".toList) 5 (fun _ => 0) 10
      ("Mr. Smith left.".toList) (by decide),
    generated_terminal_valid.2 5 (fun _ => 0) 10 ("Mr. Smith left.".toList)
      (by decide)⟩

/-- C5: during the random walk, a word with an entry in the transition
table draws its successor uniformly from that entry's list (duplicates
weighting the draw); a word without an entry falls back to a uniform draw
over the full key list, whose keys are pairwise distinct (so the fallback
is not weighted by successor-list cardinality); with at least two source
tokens the choices list is never empty, so the walk never dead-ends with
an unhandled lookup error. -/
theorem choice_semantics_and_fallback :
    (∀ (text : List Char) (w : Word) (vs : List Word),
      ddFind (construct text).mappings w = some vs →
      getChoices (construct text).mappings w = vs) ∧
    (∀ (text : List Char) (w : Word),
      ddFind (construct text).mappings w = none →
      getChoices (construct text).mappings w =
        ddKeys (construct text).mappings) ∧
    (∀ text : List Char, (ddKeys (construct text).mappings).Nodup) ∧
    (∀ (text : List Char) (w : Word), 2 ≤ (splitWS text).length →
      getChoices (construct text).mappings w ≠ []) ∧
    (∀ (text : List Char) (minLength : Nat) (oracle : Nat → Nat)
        (fuel step : Nat) (output : List Char) (word : Word),
      2 ≤ (splitWS text).length →
      (genLoop (construct text) minLength oracle fuel step output word).1 ≠
        GenResult.indexError) := by
  refine ⟨?_, ?_, construct_keys_nodup, getChoices_construct_ne_nil, ?_⟩
  · intro text w vs hf
    simp [getChoices, hf]
  · intro text w hf
    simp [getChoices, hf]
  · intro text minLength oracle fuel step output word h
    exact genLoop_ne_indexError text minLength oracle h fuel step output word

theorem choice_semantics_and_fallback_witness :
    getChoices (construct ("a. b c".toList)).mappings ("a.".toList) =
      [("b".toList)] ∧
    getChoices (construct ("a. b c".toList)).mappings ("c".toList) =
      ddKeys (construct ("a. b c".toList)).mappings ∧
    getChoices (construct ("a. b c".toList)).mappings ("c".toList) ≠ [] ∧
    (genLoop (construct ("a. b c".toList)) 3 (fun _ => 0) 2 1 []
      ("a.".toList)).1 ≠ GenResult.indexError :=
  ⟨choice_semantics_and_fallback.1 ("a. b c".toList) ("a.".toList)
      [("b".toList)] (by decide),
    choice_semantics_and_fallback.2.1 ("a. b c".toList) ("c".toList)
      (by decide),
    choice_semantics_and_fallback.2.2.2.1 ("a. b c".toList) ("c".toList)
      (by decide),
    choice_semantics_and_fallback.2.2.2.2 ("a. b c".toList) 3 (fun _ => 0) 2
      1 [] ("a.".toList) (by decide)⟩

/-- C9: for the source text `"a. b b"` the opener list is non-empty, yet
for every random stream and every amount of fuel the generation loop is
still running: the only reachable cycle is `b → b` and `b` never satisfies
the stopping rule, and the code imposes no iteration ceiling. -/
theorem unbounded_generation_possible :
    (construct ("a. b b".toList)).openers ≠ [] ∧
    (∀ (oracle : Nat → Nat) (fuel : Nat),
      (generate_text (construct ("a. b b".toList)) 100 oracle fuel).1 =
        GenResult.timeout) := by
  have hop : (construct ("a. b b".toList)).openers = [("b".toList)] := by
    decide
  have hch : getChoices (construct ("a. b b".toList)).mappings ("b".toList) =
      [("b".toList)] := by decide
  have hdot : endsWithDot ("b".toList) = false := by decide
  have hloop : ∀ (oracle : Nat → Nat) (fuel step : Nat) (output : List Char),
      (genLoop (construct ("a. b b".toList)) 100 oracle fuel step output
        ("b".toList)).1 = GenResult.timeout := by
    intro oracle fuel
    induction fuel with
    | zero =>
      intro step output
      rfl
    | succ fuel ih =>
      intro step output
      rw [genLoop]
      have hc : loopCond 100 output.length ("b".toList) = true := by
        simp only [loopCond, Bool.or_eq_true, Bool.not_eq_true', hdot]
        simp
      rw [if_pos hc, hch, pyChoice_singleton]
      exact ih (step+1) (output ++ ("b".toList) ++ [' '])
  refine ⟨by rw [hop]; simp, ?_⟩
  intro oracle fuel
  rw [generate_text, hop, pyChoice_singleton]
  exact hloop oracle fuel 1 []

/-- C10: every whitespace-delimited token of any string returned by
`generate_text` is a token of the original source text: the first word
comes from the opener list and every later word from a successor list or
from the key set, all of which hold only source tokens. -/
theorem output_tokens_from_source (text : List Char) (minLength : Nat)
    (oracle : Nat → Nat) (fuel : Nat) (out : List Char)
    (h : (generate_text (construct text) minLength oracle fuel).1 =
      GenResult.ok out) :
    ∀ t ∈ splitWS out, t ∈ splitWS text := by
  obtain ⟨mid, wl, hsplit, hmid, hwl, _, _, _⟩ :=
    generate_text_ok_anatomy text minLength oracle fuel out h
  intro t ht
  rw [hsplit] at ht
  rcases List.mem_append.mp ht with ht | ht
  · exact hmid t ht
  · rw [List.mem_singleton] at ht
    exact ht ▸ hwl

theorem output_tokens_from_source_witness :
    ("Hi.".toList : Word) ∈ splitWS ("Hello. Hi.".toList) :=
  output_tokens_from_source ("Hello. Hi.".toList) 10 (fun _ => 0) 10
    ("Hi. Hello.".toList) (by decide) ("Hi.".toList) (by decide)

end KindaNewsy
